import Mathlib

/-!
Shallow embedding of the logical core of `streamlit_app.py` (an
AI keyword rank tracker).  Python strings are modelled as `List Char`;
the string operations used by the program (`lower`, `split`, `strip`,
substring membership, `startswith`, `split(sep, 1)[1]`) are embedded as
executable Lean functions below, following the Python semantics on the
character set the program handles.
-/

/- ### Embedded Python string primitives -/

/-- Worker for `pySplit`: `acc` holds the characters of the current word in
reverse order, as Python `str.split()` scans the text left to right. -/
def pySplitAux : List Char → List Char → List (List Char)
  | [], acc => if acc.isEmpty then [] else [acc.reverse]
  | c :: cs, acc =>
    if c.isWhitespace then
      if acc.isEmpty then pySplitAux cs [] else acc.reverse :: pySplitAux cs []
    else pySplitAux cs (c :: acc)

/-- Python `str.split()` with no arguments: the maximal runs of
non-whitespace characters, in order, with no empty tokens. -/
def pySplit (l : List Char) : List (List Char) :=
  pySplitAux l []

/-- Python `str.strip()`: remove leading and trailing whitespace. -/
def pyStrip (l : List Char) : List Char :=
  ((l.dropWhile Char.isWhitespace).reverse.dropWhile Char.isWhitespace).reverse

/-- Python substring membership `needle in hay`. -/
def containsSub (needle : List Char) : List Char → Bool
  | [] => needle.isEmpty
  | c :: cs => needle.isPrefixOf (c :: cs) || containsSub needle cs

/-- Everything after the first occurrence of `sep`, as Python
`s.split(sep, 1)[1]` when `sep` occurs in `s` (and `[]` when it does not). -/
def dropThroughFirst (sep : List Char) : List Char → List Char
  | [] => []
  | c :: cs =>
    if sep.isPrefixOf (c :: cs) then (c :: cs).drop sep.length
    else dropThroughFirst sep cs

/- ### validate_keyword -/

/-- The comparison indicator substrings of `validate_keyword`. -/
def comparison_indicators : List (List Char) :=
  ["vs".data, "versus".data, "compared to".data, "better than".data,
   "alternatives to".data]

/-- The location/context substrings of `validate_keyword`. -/
def context_words : List (List Char) :=
  ["in".data, "for".data, "using".data]

/-- The question starter strings of `validate_keyword`. -/
def question_starters : List (List Char) :=
  ["how".data, "what".data, "which".data, "where".data, "why".data,
   "when".data, "is".data, "are".data]

/-- Embedding of `validate_keyword` from `streamlit_app.py`: false on the
empty string, and otherwise the disjunction of the word-count, comparison,
context and question heuristics computed on the lowercased keyword. -/
def validate_keyword (keyword : List Char) : Bool :=
  if keyword.isEmpty then false
  else
    let keyword_lower := keyword.map Char.toLower
    let has_comparison :=
      comparison_indicators.any (fun ind => containsSub ind keyword_lower)
    let has_context :=
      context_words.any (fun w => containsSub w keyword_lower)
    let is_question :=
      question_starters.any (fun w => w.isPrefixOf keyword_lower)
    decide (4 ≤ (pySplit keyword_lower).length) || has_comparison ||
      (has_context && decide (3 ≤ (pySplit keyword_lower).length)) ||
      is_question

/- ### search_openai: reply parsing -/

/-- One parsed entry of the reply: the rank/result dict that the parsing
loop of `search_openai` appends for each kept line. -/
structure SearchResult where
  rank : Nat
  result : List Char
deriving DecidableEq

/-- The separator `". "` used for numbering detection and stripping. -/
def dotSpace : List Char := ['.', ' ']

/-- Cleaning of one reply line in `search_openai`: strip the line, then if
`". "` occurs within the first four characters, keep only what follows the
first `". "`. -/
def cleanLine (line : List Char) : List Char :=
  let cleaned := pyStrip line
  if containsSub dotSpace (cleaned.take 4) then dropThroughFirst dotSpace cleaned
  else cleaned

/-- The parsing loop of `search_openai`: `idx` is the 1-based line counter
of `enumerate(results, 1)`; lines whose strip is empty are skipped but
still consume an index. -/
def parseAux (idx : Nat) : List (List Char) → List SearchResult
  | [] => []
  | line :: rest =>
    if (pyStrip line).isEmpty then parseAux (idx + 1) rest
    else { rank := idx, result := cleanLine line } :: parseAux (idx + 1) rest

/-- The pure parsing step of `search_openai`: strip the reply text, split it
on newlines, then run the parsing loop starting at index 1. -/
def parseResults (results_text : List Char) : List SearchResult :=
  parseAux 1 ((pyStrip results_text).splitOn '\n')

/- ### search_openai: error handling shape -/

/-- Outcome of the external chat-completion call: the reply text, or an
exception with its message. -/
inductive CallOutcome where
  | success (text : List Char)
  | failure (msg : List Char)
deriving DecidableEq

/-- The environment `search_openai` runs in: the session client handle
(present or absent) and the outcome of the external call. -/
structure SearchEnv where
  client : Option Unit
  outcome : CallOutcome
deriving DecidableEq

/-- What `search_openai` produces: the returned list and the messages
surfaced to the user through `st.error`. -/
structure SearchOutput where
  results : List SearchResult
  errorMessages : List (List Char)
deriving DecidableEq

/-- The message shown when the client handle is absent. -/
def clientNotInitializedMsg : List Char :=
  "OpenAI client not initialized. Please check your API key.".data

/-- The fixed head of the message shown when the external call fails. -/
def searchErrorHeader : List Char :=
  "Error occurred while searching: ".data

/-- Embedding of `search_openai`: with no client handle it surfaces an error
and returns `[]`; when the external call raises it surfaces the error and
returns `[]`; on success it parses the reply text. -/
def search_openai (env : SearchEnv) : SearchOutput :=
  match env.client with
  | none => { results := [], errorMessages := [clientNotInitializedMsg] }
  | some _ =>
    match env.outcome with
    | CallOutcome.failure msg =>
        { results := [], errorMessages := [searchErrorHeader ++ msg] }
    | CallOutcome.success text =>
        { results := parseResults text, errorMessages := [] }

/- ### analyze_rankings -/

/-- The analysis dict built by `analyze_rankings`. -/
structure BrandMatch where
  found : Bool
  rank : Option Nat
  context : Option (List Char)
  total_results : Nat
deriving DecidableEq

/-- The per-result test of the loop in `analyze_rankings`: the (already
lowercased) target brand occurs in the lowercased result text. -/
def brandInLine (target_brand : List Char) (r : SearchResult) : Bool :=
  containsSub target_brand (r.result.map Char.toLower)

/-- The scan-with-break loop of `analyze_rankings`: the first result whose
text contains the target brand, if any. -/
def findBrand (target_brand : List Char) : List SearchResult → Option SearchResult
  | [] => none
  | r :: rs => if brandInLine target_brand r then some r else findBrand target_brand rs

/-- Embedding of `analyze_rankings`: the default analysis when the brand or
the results are empty, otherwise the first matching result (scanning in
order, lowercased substring test) fills `found`, `rank` and `context`. -/
def analyze_rankings (results : List SearchResult) (target_brand : List Char) :
    BrandMatch :=
  if target_brand.isEmpty || results.isEmpty then
    { found := false, rank := none, context := none,
      total_results := results.length }
  else
    match findBrand (target_brand.map Char.toLower) results with
    | some r =>
        { found := true, rank := some r.rank, context := some r.result,
          total_results := results.length }
    | none =>
        { found := false, rank := none, context := none,
          total_results := results.length }

/- ### Helper lemmas on the embedded string primitives -/

/-- Lowercasing preserves whether a character is whitespace. -/
theorem toLower_ws (c : Char) : (Char.toLower c).isWhitespace = c.isWhitespace := by
  have hc : c = Char.ofNat c.toNat := (Char.ofNat_toNat c).symm
  by_cases h : Char.toNat c ≥ 65 ∧ Char.toNat c ≤ 90
  · obtain ⟨h1, h2⟩ := h
    obtain ⟨n, hn⟩ : ∃ n, Char.toNat c = n := ⟨_, rfl⟩
    rw [hn] at h1 h2 hc
    rw [hc]
    interval_cases n <;> decide
  · unfold Char.toLower
    simp only []
    rw [if_neg h]

/-- Boolean list-prefix test, characterized by an append decomposition. -/
theorem pfx_iff (l₁ l₂ : List Char) :
    l₁.isPrefixOf l₂ = true ↔ ∃ t, l₂ = l₁ ++ t := by
  rw [ List.isPrefixOf_iff_prefix]
  constructor
  · rintro ⟨t, ht⟩
    exact ⟨t, ht.symm⟩
  · rintro ⟨t, ht⟩
    exact ⟨t, ht.symm⟩

/-- Boolean substring test, characterized by an append decomposition. -/
theorem containsSub_iff (n l : List Char) :
    containsSub n l = true ↔ ∃ s t, l = s ++ n ++ t := by
  induction l with
  | nil =>
    simp only [containsSub, List.isEmpty_iff]
    constructor
    · rintro rfl
      exact ⟨[], [], rfl⟩
    · rintro ⟨s, t, h⟩
      rcases List.append_eq_nil.mp h.symm with ⟨h1, h2⟩
      exact (List.append_eq_nil.mp h1).2
  | cons c cs ih =>
    simp only [containsSub, Bool.or_eq_true, ih, pfx_iff]
    constructor
    · rintro (⟨t, ht⟩ | ⟨s, t, h⟩)
      · exact ⟨[], t, by simpa using ht⟩
      · exact ⟨c :: s, t, by simp [h]⟩
    · rintro ⟨s, t, h⟩
      cases s with
      | nil =>
        left
        exact ⟨t, by simpa using h⟩
      | cons d ds =>
        right
        rw [List.cons_append, List.cons_append] at h
        obtain ⟨rfl, h2⟩ := List.cons.inj h
        exact ⟨ds, t, h2⟩

/-- Members of a substring occurrence are members of the haystack. -/
theorem containsSub_subset {n l : List Char} (h : containsSub n l = true) :
    ∀ c ∈ n, c ∈ l := by
  obtain ⟨s, t, rfl⟩ := (containsSub_iff n l).mp h
  intro c hc
  simp [hc]

/-- Members of a prefix are members of the whole list. -/
theorem pfx_subset {l₁ l₂ : List Char} (h : l₁.isPrefixOf l₂ = true) :
    ∀ c ∈ l₁, c ∈ l₂ := by
  obtain ⟨t, rfl⟩ := (pfx_iff l₁ l₂).mp h
  intro c hc
  simp [hc]

/-- A needle with a non-whitespace character does not occur in an
all-whitespace haystack. -/
theorem containsSub_ws_false {l : List Char} (hl : ∀ c ∈ l, c.isWhitespace = true)
    {n : List Char} (c₀ : Char) (hc₀ : c₀.isWhitespace = false) (hmem : c₀ ∈ n) :
    containsSub n l = false := by
  cases h : containsSub n l with
  | false => rfl
  | true =>
    have := hl c₀ (containsSub_subset h c₀ hmem)
    rw [hc₀] at this
    cases this

/-- A needle with a non-whitespace character is not a prefix of an
all-whitespace list. -/
theorem pfxOf_ws_false {l : List Char} (hl : ∀ c ∈ l, c.isWhitespace = true)
    {n : List Char} (c₀ : Char) (hc₀ : c₀.isWhitespace = false) (hmem : c₀ ∈ n) :
    n.isPrefixOf l = false := by
  cases h : n.isPrefixOf l with
  | false => rfl
  | true =>
    have := hl c₀ (pfx_subset h c₀ hmem)
    rw [hc₀] at this
    cases this

/-- `pySplitAux` commutes with a character map that preserves whitespace. -/
theorem pySplitAux_map (f : Char → Char)
    (hf : ∀ c, (f c).isWhitespace = c.isWhitespace) :
    ∀ (l acc : List Char),
      pySplitAux (l.map f) (acc.map f) = (pySplitAux l acc).map (List.map f) := by
  intro l
  induction l with
  | nil =>
    intro acc
    simp only [List.map_nil, pySplitAux]
    by_cases h : acc.isEmpty
    · rw [if_pos h, if_pos (by simpa [List.isEmpty_iff] using h), List.map_nil]
    · rw [if_neg h, if_neg (by simpa [List.isEmpty_iff] using h)]
      simp
  | cons c cs ih =>
    intro acc
    simp only [List.map_cons, pySplitAux, hf c]
    by_cases hw : c.isWhitespace
    · rw [if_pos hw, if_pos hw]
      by_cases h : acc.isEmpty
      · rw [if_pos h, if_pos (by simpa [List.isEmpty_iff] using h)]
        simpa using ih []
      · rw [if_neg h, if_neg (by simpa [List.isEmpty_iff] using h)]
        have := ih []
        simp only [List.map_nil] at this
        simp [this]
    · rw [if_neg hw, if_neg hw]
      simpa using ih (c :: acc)

/-- `pySplit` of the lowercased text is the lowercased `pySplit`. -/
theorem pySplit_map_toLower (l : List Char) :
    pySplit (l.map Char.toLower) = (pySplit l).map (List.map Char.toLower) := by
  have := pySplitAux_map Char.toLower toLower_ws l []
  simpa [pySplit] using this

/-- Lowercasing does not change the word count. -/
theorem pySplit_toLower_length (l : List Char) :
    (pySplit (l.map Char.toLower)).length = (pySplit l).length := by
  rw [pySplit_map_toLower, List.length_map]

/-- An all-whitespace text splits into no words. -/
theorem pySplit_ws_nil {l : List Char} (hl : ∀ c ∈ l, c.isWhitespace = true) :
    pySplit l = [] := by
  rw [pySplit]
  induction l with
  | nil => rfl
  | cons c cs ih =>
    rw [pySplitAux, if_pos (hl c (by simp))]
    have h2 : pySplitAux cs [] = [] := ih fun d hd => hl d (by simp [hd])
    simp [h2]

/-- Every word produced by `pySplitAux` occurs contiguously in the text. -/
theorem pySplitAux_mem_parts :
    ∀ (l acc w : List Char), w ∈ pySplitAux l acc →
      ∃ s t, acc.reverse ++ l = s ++ w ++ t := by
  intro l
  induction l with
  | nil =>
    intro acc w hw
    rw [pySplitAux] at hw
    by_cases h : acc.isEmpty
    · rw [if_pos h] at hw
      simp at hw
    · rw [if_neg h] at hw
      obtain rfl := List.mem_singleton.mp hw
      exact ⟨[], [], by simp⟩
  | cons c cs ih =>
    intro acc w hw
    rw [pySplitAux] at hw
    by_cases hws : c.isWhitespace
    · rw [if_pos hws] at hw
      by_cases h : acc.isEmpty
      · rw [if_pos h] at hw
        obtain rfl : acc = [] := List.isEmpty_iff.mp h
        obtain ⟨s, t, hst⟩ := ih [] w hw
        simp only [List.reverse_nil, List.nil_append] at hst
        exact ⟨c :: s, t, by simp [hst]⟩
      · rw [if_neg h] at hw
        rcases List.mem_cons.mp hw with rfl | hw2
        · exact ⟨[], c :: cs, by simp⟩
        · obtain ⟨s, t, hst⟩ := ih [] w hw2
          simp only [List.reverse_nil, List.nil_append] at hst
          exact ⟨acc.reverse ++ c :: s, t, by simp [hst]⟩
    · rw [if_neg hws] at hw
      obtain ⟨s, t, hst⟩ := ih (c :: acc) w hw
      simp only [List.reverse_cons] at hst
      exact ⟨s, t, by simpa using hst⟩

/-- Every word of `pySplit` occurs as a substring of the text. -/
theorem containsSub_of_mem_pySplit {l w : List Char} (hw : w ∈ pySplit l) :
    containsSub w l = true := by
  obtain ⟨s, t, hst⟩ := pySplitAux_mem_parts l [] w hw
  simp only [List.reverse_nil, List.nil_append] at hst
  exact (containsSub_iff w l).mpr ⟨s, t, hst⟩

/-- The first character surviving `dropWhile isWhitespace` is not
whitespace. -/
theorem dropWhile_ws_head (l : List Char) (c : Char) (t : List Char)
    (h : l.dropWhile Char.isWhitespace = c :: t) : c.isWhitespace = false := by
  induction l with
  | nil => simp at h
  | cons a as ih =>
    by_cases ha : a.isWhitespace
    · rw [List.dropWhile_cons_of_pos ha] at h
      exact ih h
    · rw [List.dropWhile_cons_of_neg ha] at h
      obtain ⟨rfl, -⟩ := List.cons.inj h
      simpa using ha

/-- A stripped string never ends in a whitespace character. -/
theorem pyStrip_no_ws_end (l s : List Char) (c : Char)
    (hc : c.isWhitespace = true) : pyStrip l ≠ s ++ [c] := by
  intro h
  unfold pyStrip at h
  have h2 : (l.dropWhile Char.isWhitespace).reverse.dropWhile Char.isWhitespace
      = c :: s.reverse := by
    have h3 := congrArg List.reverse h
    simpa using h3
  have h4 := dropWhile_ws_head _ _ _ h2
  rw [hc] at h4
  cases h4

/-- Dropping through the first occurrence of `". "` in a list that contains
it and does not end in a space leaves a non-empty remainder. -/
theorem dropThroughFirst_ne_nil (l : List Char)
    (hocc : containsSub dotSpace l = true)
    (hend : ∀ s, l ≠ s ++ [' ']) :
    dropThroughFirst dotSpace l ≠ [] := by
  induction l with
  | nil => simp [containsSub, dotSpace] at hocc
  | cons c cs ih =>
    rw [dropThroughFirst]
    by_cases hp : dotSpace.isPrefixOf (c :: cs) = true
    · rw [if_pos hp]
      obtain ⟨t, ht⟩ := (pfx_iff _ _).mp hp
      rw [ht]
      cases t with
      | nil =>
        exact absurd (by simpa [dotSpace] using ht) (hend ['.'])
      | cons d ds =>
        simp [dotSpace]
    · rw [if_neg hp]
      rw [containsSub, Bool.or_eq_true] at hocc
      rcases hocc with hocc | hocc
      · exact absurd hocc hp
      · exact ih hocc fun s hs => hend (c :: s) (by simp [hs])

/-- The cleaned form of a line whose strip is non-empty is non-empty. -/
theorem cleanLine_ne_nil (line : List Char) (h : pyStrip line ≠ []) :
    cleanLine line ≠ [] := by
  rw [cleanLine]
  by_cases hc : containsSub dotSpace ((pyStrip line).take 4) = true
  · rw [if_pos hc]
    apply dropThroughFirst_ne_nil
    · obtain ⟨s, t, hst⟩ := (containsSub_iff _ _).mp hc
      refine (containsSub_iff _ _).mpr ⟨s, t ++ (pyStrip line).drop 4, ?_⟩
      calc pyStrip line
          = (pyStrip line).take 4 ++ (pyStrip line).drop 4 :=
            (List.take_append_drop _ _).symm
        _ = s ++ dotSpace ++ (t ++ (pyStrip line).drop 4) := by
            rw [hst]; simp
    · intro s
      exact pyStrip_no_ws_end line s ' ' (by decide)
  · rw [if_neg hc]
    exact h

/-- Every rank produced by the parsing loop is at least the starting
index. -/
theorem parseAux_rank_ge (lines : List (List Char)) :
    ∀ (idx : Nat) (r : SearchResult), r ∈ parseAux idx lines → idx ≤ r.rank := by
  induction lines with
  | nil =>
    intro idx r hr
    simp [parseAux] at hr
  | cons line rest ih =>
    intro idx r hr
    rw [parseAux] at hr
    by_cases hl : (pyStrip line).isEmpty
    · rw [if_pos hl] at hr
      exact Nat.le_of_succ_le (ih (idx + 1) r hr)
    · rw [if_neg hl] at hr
      rcases List.mem_cons.mp hr with rfl | hr2
      · exact Nat.le_refl idx
      · exact Nat.le_of_succ_le (ih (idx + 1) r hr2)

/-- The ranks produced by the parsing loop are strictly increasing. -/
theorem parseAux_rank_sorted (lines : List (List Char)) :
    ∀ idx : Nat, ((parseAux idx lines).map SearchResult.rank).Pairwise (· < ·) := by
  induction lines with
  | nil =>
    intro idx
    simp [parseAux]
  | cons line rest ih =>
    intro idx
    rw [parseAux]
    by_cases hl : (pyStrip line).isEmpty
    · rw [if_pos hl]
      exact ih (idx + 1)
    · rw [if_neg hl]
      rw [List.map_cons]
      refine List.Pairwise.cons ?_ (ih (idx + 1))
      intro b hb
      obtain ⟨r, hr, rfl⟩ := List.mem_map.mp hb
      exact Nat.lt_of_succ_le (parseAux_rank_ge rest (idx + 1) r hr)

/-- Every entry produced by the parsing loop has non-empty text. -/
theorem parseAux_result_ne_nil (lines : List (List Char)) :
    ∀ (idx : Nat) (r : SearchResult), r ∈ parseAux idx lines → r.result ≠ [] := by
  induction lines with
  | nil =>
    intro idx r hr
    simp [parseAux] at hr
  | cons line rest ih =>
    intro idx r hr
    rw [parseAux] at hr
    by_cases hl : (pyStrip line).isEmpty
    · rw [if_pos hl] at hr
      exact ih (idx + 1) r hr
    · rw [if_neg hl] at hr
      rcases List.mem_cons.mp hr with rfl | hr2
      · exact cleanLine_ne_nil line (by simpa [List.isEmpty_iff] using hl)
      · exact ih (idx + 1) r hr2

/-- On a list of lines none of which is blank after stripping, the parsing
loop keeps every line, numbering consecutively from the starting index. -/
theorem parseAux_all_kept (lines : List (List Char)) :
    ∀ idx : Nat, (∀ l ∈ lines, pyStrip l ≠ []) →
      (parseAux idx lines).map SearchResult.rank = List.range' idx lines.length ∧
      (parseAux idx lines).map SearchResult.result = lines.map cleanLine := by
  induction lines with
  | nil =>
    intro idx h
    simp [parseAux]
  | cons line rest ih =>
    intro idx h
    rw [parseAux]
    rw [if_neg (by simpa [List.isEmpty_iff] using h line (by simp))]
    obtain ⟨ih1, ih2⟩ := ih (idx + 1) fun l hl => h l (by simp [hl])
    constructor
    · rw [List.map_cons, ih1, List.length_cons, List.range'_succ]
    · rw [List.map_cons, ih2, List.map_cons]

/-- The first match found by the scan loop is characterized by an append
decomposition: everything before it fails the brand test. -/
theorem findBrand_eq_some (tb : List Char) (results : List SearchResult)
    (r : SearchResult) (h : findBrand tb results = some r) :
    ∃ pre post, results = pre ++ r :: post ∧ brandInLine tb r = true ∧
      ∀ x ∈ pre, brandInLine tb x = false := by
  induction results with
  | nil => simp [findBrand] at h
  | cons a rs ih =>
    rw [findBrand] at h
    by_cases hb : brandInLine tb a = true
    · rw [if_pos hb] at h
      obtain rfl := Option.some.inj h
      exact ⟨[], rs, rfl, hb, by simp⟩
    · rw [if_neg hb] at h
      obtain ⟨pre, post, h1, h2, h3⟩ := ih h
      refine ⟨a :: pre, post, by simp [h1], h2, ?_⟩
      intro x hx
      rcases List.mem_cons.mp hx with rfl | hx2
      · exact Bool.eq_false_iff.mpr hb
      · exact h3 x hx2

/- ### Claim theorems -/

/-- C3: every keyword with fewer than 3 whitespace-separated words that
contains no comparison marker and does not begin with a question word is
rejected by `validate_keyword`. -/
theorem validate_short_plain_false (keyword : List Char)
    (hlen : (pySplit keyword).length < 3)
    (hcomp : ∀ ind ∈ comparison_indicators,
      containsSub ind (keyword.map Char.toLower) = false)
    (hq : ∀ q ∈ question_starters,
      q.isPrefixOf (keyword.map Char.toLower) = false) :
    validate_keyword keyword = false := by
  by_cases hk : keyword.isEmpty
  · simp [validate_keyword, hk]
  · have hlen2 : (pySplit (keyword.map Char.toLower)).length < 3 := by
      rwa [pySplit_toLower_length]
    have h4 : decide (4 ≤ (pySplit (keyword.map Char.toLower)).length) = false := by
      simp
      omega
    have h3 : decide (3 ≤ (pySplit (keyword.map Char.toLower)).length) = false := by
      simp
      omega
    have hc : comparison_indicators.any
        (fun ind => containsSub ind (keyword.map Char.toLower)) = false :=
      List.any_eq_false.mpr (by intro x hx; simp [hcomp x hx])
    have hqq : question_starters.any
        (fun w => w.isPrefixOf (keyword.map Char.toLower)) = false :=
      List.any_eq_false.mpr (by intro x hx; simp [hq x hx])
    simp only [validate_keyword, Bool.not_eq_true] at hk ⊢
    rw [if_neg (by simp [hk])]
    simp only [hc, hqq, h4, h3, Bool.or_false, Bool.false_or, Bool.and_false]

/-- Witness for C3 at the concrete keyword "red shoes". -/
theorem validate_short_plain_false_witness :
    validate_keyword ("red shoes".data) = false :=
  validate_short_plain_false _ (by decide) (by decide) (by decide)

/-- C4 counterexample: the keyword "best gadget stores" contains the
qualifying word "best" and has 3 words, yet `validate_keyword` rejects it:
the code tests the context substrings "in", "for", "using", not the
qualifying-word set named by the claim. -/
theorem validate_qualifier_counterexample :
    "best".data ∈ pySplit (("best gadget stores".data).map Char.toLower) ∧
    3 ≤ (pySplit ("best gadget stores".data)).length ∧
    validate_keyword ("best gadget stores".data) = false := by
  decide

/-- C4 (amended): every keyword that contains one of the context substrings
"in", "for", "using" (case-insensitively) and has at least 3
whitespace-separated words is accepted by `validate_keyword`. -/
theorem validate_context_three_words_true (keyword : List Char)
    (h1 : ∃ w ∈ context_words, containsSub w (keyword.map Char.toLower) = true)
    (h2 : 3 ≤ (pySplit keyword).length) :
    validate_keyword keyword = true := by
  have hne : keyword.isEmpty = false := by
    cases keyword with
    | nil => simp [pySplit, pySplitAux] at h2
    | cons a as => rfl
  have hctx : context_words.any
      (fun w => containsSub w (keyword.map Char.toLower)) = true :=
    List.any_eq_true.mpr (by obtain ⟨w, hw, hsub⟩ := h1; exact ⟨w, hw, hsub⟩)
  have h3 : decide (3 ≤ (pySplit (keyword.map Char.toLower)).length) = true := by
    rw [pySplit_toLower_length]
    simpa using h2
  simp [validate_keyword, hne, hctx, h3]

/-- Witness for the amended C4 at the concrete keyword "shoes for running". -/
theorem validate_context_three_words_true_witness :
    validate_keyword ("shoes for running".data) = true :=
  validate_context_three_words_true _ ⟨"for".data, by decide, by decide⟩ (by decide)

/-- C5: `validate_keyword` rejects the empty string and every
whitespace-only string. -/
theorem validate_blank_false (keyword : List Char)
    (h : ∀ c ∈ keyword, c.isWhitespace = true) :
    validate_keyword keyword = false := by
  by_cases hk : keyword.isEmpty
  · simp [validate_keyword, hk]
  · have hl : ∀ c ∈ keyword.map Char.toLower, c.isWhitespace = true := by
      intro c hc
      obtain ⟨d, hd, rfl⟩ := List.mem_map.mp hc
      rw [toLower_ws]
      exact h d hd
    have hsplit : pySplit (keyword.map Char.toLower) = [] := pySplit_ws_nil hl
    have hc : comparison_indicators.any
        (fun ind => containsSub ind (keyword.map Char.toLower)) = false := by
      apply List.any_eq_false.mpr
      intro x hx
      simp only [comparison_indicators, List.mem_cons, List.not_mem_nil,
        or_false] at hx
      rcases hx with rfl | rfl | rfl | rfl | rfl
      · have hv : containsSub (['v', 's'] : List Char)
            (List.map Char.toLower keyword) = false :=
          containsSub_ws_false hl 'v' (by decide) (by decide)
        simp [hv]
      · have hv : containsSub (['v', 'e', 'r', 's', 'u', 's'] : List Char)
            (List.map Char.toLower keyword) = false :=
          containsSub_ws_false hl 'v' (by decide) (by decide)
        simp [hv]
      · have hv : containsSub
            (['c', 'o', 'm', 'p', 'a', 'r', 'e', 'd', ' ', 't', 'o'] : List Char)
            (List.map Char.toLower keyword) = false :=
          containsSub_ws_false hl 'c' (by decide) (by decide)
        simp [hv]
      · have hv : containsSub
            (['b', 'e', 't', 't', 'e', 'r', ' ', 't', 'h', 'a', 'n'] : List Char)
            (List.map Char.toLower keyword) = false :=
          containsSub_ws_false hl 'b' (by decide) (by decide)
        simp [hv]
      · have hv : containsSub
            (['a', 'l', 't', 'e', 'r', 'n', 'a', 't', 'i', 'v', 'e', 's', ' ',
              't', 'o'] : List Char)
            (List.map Char.toLower keyword) = false :=
          containsSub_ws_false hl 'a' (by decide) (by decide)
        simp [hv]
    have hqq : question_starters.any
        (fun w => w.isPrefixOf (keyword.map Char.toLower)) = false := by
      apply List.any_eq_false.mpr
      intro x hx
      simp only [question_starters, List.mem_cons, List.not_mem_nil,
        or_false] at hx
      rcases hx with rfl | rfl | rfl | rfl | rfl | rfl | rfl | rfl
      · have hv : (['h', 'o', 'w'] : List Char).isPrefixOf
            (List.map Char.toLower keyword) = false :=
          pfxOf_ws_false hl 'h' (by decide) (by decide)
        simp [hv]
      · have hv : (['w', 'h', 'a', 't'] : List Char).isPrefixOf
            (List.map Char.toLower keyword) = false :=
          pfxOf_ws_false hl 'w' (by decide) (by decide)
        simp [hv]
      · have hv : (['w', 'h', 'i', 'c', 'h'] : List Char).isPrefixOf
            (List.map Char.toLower keyword) = false :=
          pfxOf_ws_false hl 'w' (by decide) (by decide)
        simp [hv]
      · have hv : (['w', 'h', 'e', 'r', 'e'] : List Char).isPrefixOf
            (List.map Char.toLower keyword) = false :=
          pfxOf_ws_false hl 'w' (by decide) (by decide)
        simp [hv]
      · have hv : (['w', 'h', 'y'] : List Char).isPrefixOf
            (List.map Char.toLower keyword) = false :=
          pfxOf_ws_false hl 'w' (by decide) (by decide)
        simp [hv]
      · have hv : (['w', 'h', 'e', 'n'] : List Char).isPrefixOf
            (List.map Char.toLower keyword) = false :=
          pfxOf_ws_false hl 'w' (by decide) (by decide)
        simp [hv]
      · have hv : (['i', 's'] : List Char).isPrefixOf
            (List.map Char.toLower keyword) = false :=
          pfxOf_ws_false hl 'i' (by decide) (by decide)
        simp [hv]
      · have hv : (['a', 'r', 'e'] : List Char).isPrefixOf
            (List.map Char.toLower keyword) = false :=
          pfxOf_ws_false hl 'a' (by decide) (by decide)
        simp [hv]
    simp only [validate_keyword, Bool.not_eq_true] at hk ⊢
    rw [if_neg (by simp [hk])]
    simp only [hsplit, hc, hqq, List.length_nil]
    simp

/-- Witness for C5 at the whitespace-only string of three spaces. -/
theorem validate_blank_false_witness :
    validate_keyword ("   ".data) = false :=
  validate_blank_false _ (by decide)

/-- C6: every keyword containing "vs" or "versus" as a separate
whitespace-delimited word (case-insensitively) is accepted by
`validate_keyword`, whatever its word count. -/
theorem validate_vs_true (keyword : List Char)
    (h : ∃ w ∈ pySplit keyword,
      w.map Char.toLower = "vs".data ∨ w.map Char.toLower = "versus".data) :
    validate_keyword keyword = true := by
  obtain ⟨w, hw, hvs⟩ := h
  have hne : keyword.isEmpty = false := by
    cases keyword with
    | nil => simp [pySplit, pySplitAux] at hw
    | cons a as => rfl
  have hmem : w.map Char.toLower ∈ pySplit (keyword.map Char.toLower) := by
    rw [pySplit_map_toLower]
    exact List.mem_map_of_mem _ hw
  have hsub : containsSub (w.map Char.toLower) (keyword.map Char.toLower) = true :=
    containsSub_of_mem_pySplit hmem
  have hcomp : comparison_indicators.any
      (fun ind => containsSub ind (keyword.map Char.toLower)) = true := by
    apply List.any_eq_true.mpr
    rcases hvs with hv | hv
    · exact ⟨"vs".data, by simp [comparison_indicators], by rw [← hv]; exact hsub⟩
    · exact ⟨"versus".data, by simp [comparison_indicators], by rw [← hv]; exact hsub⟩
  simp [validate_keyword, hne, hcomp]

/-- Witness for C6 at the two-word keyword "a vs".  -/
theorem validate_vs_true_witness :
    validate_keyword ("a vs".data) = true :=
  validate_vs_true _ ⟨"vs".data, by decide, Or.inl (by decide)⟩

/-- C1 counterexample: the reply "a\n\nb" has 2 non-empty lines, but the
parsing step assigns ranks [1, 3]: the blank interior line consumes an
index, so the ranks are not 1..N. -/
theorem parse_rank_gap_counterexample :
    (((pyStrip ("a\n\nb".data)).splitOn '\n').filter
        (fun l => !l.isEmpty)).length = 2 ∧
    (parseResults ("a\n\nb".data)).map SearchResult.rank = [1, 3] ∧
    (parseResults ("a\n\nb".data)).map SearchResult.rank ≠ List.range' 1 2 := by
  decide

/-- C1 (amended): when no line of the stripped reply is blank after
stripping, the parsing step keeps every line in order, the ranks are
exactly 1..N, and each kept text is the cleaned line (numbering prefix
stripped by `cleanLine`). -/
theorem parse_ranks_consecutive_of_no_blank (results_text : List Char)
    (h : ∀ line ∈ (pyStrip results_text).splitOn '\n', pyStrip line ≠ []) :
    (parseResults results_text).map SearchResult.rank =
      List.range' 1 ((pyStrip results_text).splitOn '\n').length ∧
    (parseResults results_text).map SearchResult.result =
      ((pyStrip results_text).splitOn '\n').map cleanLine :=
  parseAux_all_kept _ 1 h

/-- Witness for the amended C1 at the concrete reply "1. a\n2. b". -/
theorem parse_ranks_consecutive_of_no_blank_witness :
    (parseResults ("1. a\n2. b".data)).map SearchResult.rank =
      List.range' 1 (((pyStrip ("1. a\n2. b".data)).splitOn '\n').length) ∧
    (parseResults ("1. a\n2. b".data)).map SearchResult.result =
      ((pyStrip ("1. a\n2. b".data)).splitOn '\n').map cleanLine :=
  parse_ranks_consecutive_of_no_blank _ (by decide)

/-- C2: whenever `analyze_rankings` reports `found`, its rank and context
come from the first result (in scan order) whose text contains the brand
case-insensitively, everything before it failing the test; when it does
not report `found`, rank and context are absent. -/
theorem analyze_first_match_invariant (results : List SearchResult)
    (target_brand : List Char) :
    ((analyze_rankings results target_brand).found = true →
      ∃ pre r post, results = pre ++ r :: post ∧
        brandInLine (target_brand.map Char.toLower) r = true ∧
        (∀ x ∈ pre, brandInLine (target_brand.map Char.toLower) x = false) ∧
        (analyze_rankings results target_brand).rank = some r.rank ∧
        (analyze_rankings results target_brand).context = some r.result) ∧
    ((analyze_rankings results target_brand).found = false →
      (analyze_rankings results target_brand).rank = none ∧
      (analyze_rankings results target_brand).context = none) := by
  by_cases hg : (target_brand.isEmpty || results.isEmpty) = true
  · rw [analyze_rankings, if_pos hg]
    exact ⟨(fun h => nomatch h), fun _ => ⟨rfl, rfl⟩⟩
  · cases hfb : findBrand (target_brand.map Char.toLower) results with
    | some r =>
      rw [analyze_rankings, if_neg hg, hfb]
      obtain ⟨pre, post, h1, h2, h3⟩ := findBrand_eq_some _ _ _ hfb
      exact ⟨fun _ => ⟨pre, r, post, h1, h2, h3, rfl, rfl⟩, (fun h => nomatch h)⟩
    | none =>
      rw [analyze_rankings, if_neg hg, hfb]
      exact ⟨(fun h => nomatch h), fun _ => ⟨rfl, rfl⟩⟩

/-- Witness for C2 at a concrete results list where the brand "foo" first
matches the rank-2 entry. -/
theorem analyze_first_match_invariant_witness :
    ∃ pre r post,
      [SearchResult.mk 1 ("Acme Corp - widgets".data),
       SearchResult.mk 2 ("Foo Inc - gadgets".data),
       SearchResult.mk 3 ("Foo again".data)] = pre ++ r :: post ∧
      brandInLine (("foo".data).map Char.toLower) r = true ∧
      (∀ x ∈ pre, brandInLine (("foo".data).map Char.toLower) x = false) ∧
      (analyze_rankings
        [SearchResult.mk 1 ("Acme Corp - widgets".data),
         SearchResult.mk 2 ("Foo Inc - gadgets".data),
         SearchResult.mk 3 ("Foo again".data)] ("foo".data)).rank = some r.rank ∧
      (analyze_rankings
        [SearchResult.mk 1 ("Acme Corp - widgets".data),
         SearchResult.mk 2 ("Foo Inc - gadgets".data),
         SearchResult.mk 3 ("Foo again".data)] ("foo".data)).context =
        some r.result :=
  (analyze_first_match_invariant _ _).1 (by decide)

/-- C7: when the client handle is absent or the external call fails,
`search_openai` returns the empty list and surfaces at least one
user-facing error message. -/
theorem search_failure_empty_surfaced (env : SearchEnv)
    (h : env.client = none ∨ ∃ msg, env.outcome = CallOutcome.failure msg) :
    (search_openai env).results = [] ∧ (search_openai env).errorMessages ≠ [] := by
  rcases h with h | ⟨msg, h⟩
  · rw [search_openai, h]
    exact ⟨rfl, by simp⟩
  · cases hc : env.client with
    | none =>
      rw [search_openai, hc]
      exact ⟨rfl, by simp⟩
    | some u =>
      rw [search_openai, hc, h]
      exact ⟨rfl, by simp⟩

/-- Witness for C7 with an absent client handle. -/
theorem search_failure_empty_surfaced_witness :
    (search_openai ⟨none, CallOutcome.success []⟩).results = [] ∧
    (search_openai ⟨none, CallOutcome.success []⟩).errorMessages ≠ [] :=
  search_failure_empty_surfaced _ (Or.inl rfl)

/-- C8: on the scenario reply the parsing step yields ranks 1..3 with the
numbering stripped, and analysis for the brand "foo" finds rank 2 with the
full second line as context. -/
theorem scenario_parse_analyze :
    parseResults
        ("1. Acme Corp - widgets\n2. Foo Inc - gadgets\n3. Bar LLC - gizmos".data) =
      [SearchResult.mk 1 ("Acme Corp - widgets".data),
       SearchResult.mk 2 ("Foo Inc - gadgets".data),
       SearchResult.mk 3 ("Bar LLC - gizmos".data)] ∧
    analyze_rankings
        (parseResults
          ("1. Acme Corp - widgets\n2. Foo Inc - gadgets\n3. Bar LLC - gizmos".data))
        ("foo".data) =
      { found := true, rank := some 2, context := some ("Foo Inc - gadgets".data),
        total_results := 3 } := by
  decide

/-- C9: `analyze_rankings` always reports the full length of its input as
`total_results`, whether or not the scan stopped early at a match. -/
theorem analyze_total_results_length (results : List SearchResult)
    (target_brand : List Char) :
    (analyze_rankings results target_brand).total_results = results.length := by
  rw [analyze_rankings]
  by_cases hg : (target_brand.isEmpty || results.isEmpty) = true
  · rw [if_pos hg]
  · rw [if_neg hg]
    cases findBrand (target_brand.map Char.toLower) results <;> rfl

/-- C10: the ranks returned by the parsing step are strictly increasing in
output order, and every returned text is non-empty even after the
numbering prefix was stripped. -/
theorem parse_ranks_increasing_text_nonempty (results_text : List Char) :
    ((parseResults results_text).map SearchResult.rank).Pairwise (· < ·) ∧
    ∀ r ∈ parseResults results_text, r.result ≠ [] :=
  ⟨parseAux_rank_sorted _ 1, fun r hr => parseAux_result_ne_nil _ 1 r hr⟩
